import Mathlib

/-!
Shallow embedding of the connect4evolution core: the Connect Four board state
machine (`environment/board.py`, `environment/player.py`, `environment/state.py`)
and the sparse Q-learning subsystem (`sparse_q_learning/memory.py`,
`sparse_q_learning/agent.py`, `sparse_q_learning/config.py`).

Python floats are modelled as rationals (ℚ); the float value `-inf` used
locally in `choose_action` is modelled as `⊥ : WithBot ℚ`.  Numpy integer
grids are modelled as `List (List Nat)` (row 0 is the top row, row-major).
A Python call that raises is modelled as an `Option`-returning function
producing `none`.
-/

namespace Connect4

/-- The `Player` enum of `environment/player.py`: EMPTY = 0, PLAYER_1 = 1,
PLAYER_2 = 2. -/
inductive Player where
  | empty
  | p1
  | p2
deriving DecidableEq

/-- The numeric `.value` of each `Player` enum member. -/
def Player.value : Player → Nat
  | .empty => 0
  | .p1 => 1
  | .p2 => 2

/-- The `next_player` method: PLAYER_1 ↔ PLAYER_2, EMPTY ↦ EMPTY. -/
def Player.nextPlayer : Player → Player
  | .p1 => .p2
  | .p2 => .p1
  | .empty => .empty

/-- The mutable board of `ConnectFourBoard`: grid of ints (numpy array of
shape rows × cols), current player, optional last move, terminal flag and
optional winner. -/
structure Board where
  rows : Nat
  cols : Nat
  grid : List (List Nat)
  currentPlayer : Player
  lastMove : Option (Nat × Nat)
  gameOver : Bool
  winner : Option Player
deriving DecidableEq

/-- A fresh board as produced by `ConnectFourBoard.__init__` / `_reset`:
all-zero grid, PLAYER_1 to move, no last move, not over, no winner. -/
def mkBoard (rows cols : Nat) : Board :=
  { rows := rows
    cols := cols
    grid := List.replicate rows (List.replicate cols 0)
    currentPlayer := .p1
    lastMove := none
    gameOver := false
    winner := none }

/-- Cell lookup `board[r][c]` (out-of-range reads default to 0; in the Python
source all reads are in range). -/
def getCell (g : List (List Nat)) (r c : Nat) : Nat :=
  (g.getD r []).getD c 0

/-- The list comprehension `[col for col, cell in enumerate(row0) if cell == EMPTY.value]`
shared by `ConnectFourBoard.get_valid_moves` and `GameState.get_valid_moves`. -/
def validMovesOf (topRow : List Nat) : List Nat :=
  (topRow.enum.filter (fun p => p.2 == 0)).map Prod.fst

/-- `ConnectFourBoard.get_valid_moves`. -/
def Board.getValidMoves (b : Board) : List Nat :=
  validMovesOf (b.grid.getD 0 [])

/-- The loop `for row in range(rows-1, -1, -1): if board[row][col] == EMPTY: ...`:
first row index, scanning from `n-1` down to 0, whose cell in `col` is empty. -/
def findRowDesc (g : List (List Nat)) (col : Nat) : Nat → Option Nat
  | 0 => none
  | n + 1 => if getCell g n col = 0 then some n else findRowDesc g col n

/-- Writing a single cell of the grid, `board[r][c] = v`. -/
def setCell (g : List (List Nat)) (r c v : Nat) : List (List Nat) :=
  g.set r ((g.getD r []).set c v)

/-- The while loop of `ConnectFourBoard._count_consecutive`, with fuel
(the Python loop leaves the board's bounds after at most `rows + cols`
steps, so that much fuel makes the model exact). -/
def countConsecutive (g : List (List Nat)) (rows cols : Nat) (fuel : Nat)
    (r c dr dc : Int) (player : Nat) : Nat :=
  match fuel with
  | 0 => 0
  | fuel + 1 =>
    let nr := r + dr
    let nc := c + dc
    if 0 ≤ nr ∧ nr < (rows : Int) ∧ 0 ≤ nc ∧ nc < (cols : Int) ∧
        getCell g nr.toNat nc.toNat = player then
      1 + countConsecutive g rows cols fuel nr nc dr dc player
    else 0

/-- `ConnectFourBoard._check_win`: four axis pairs scanned outward from the
last move; a count of at least 4 on some axis is a win. -/
def checkWin (g : List (List Nat)) (rows cols : Nat)
    (lastMove : Option (Nat × Nat)) : Bool :=
  match lastMove with
  | none => false
  | some (row, col) =>
    let player := getCell g row col
    let fuel := rows + cols
    let dirs : List ((Int × Int) × (Int × Int)) :=
      [((0, 1), (0, -1)), ((1, 0), (-1, 0)), ((1, 1), (-1, -1)), ((1, -1), (-1, 1))]
    dirs.any (fun d =>
      4 ≤ 1 + countConsecutive g rows cols fuel row col d.1.1 d.1.2 player
            + countConsecutive g rows cols fuel row col d.2.1 d.2.2 player)

/-- `ConnectFourBoard.make_move`.  Returns the updated board and the bool
result.  On an invalid move (game over, or the column not among the valid
moves) it returns `false` with the board untouched; otherwise it drops the
token at the lowest empty row, records the last move, evaluates win, then
draw, and switches the current player unconditionally.  (If the placement
loop found no empty row — unreachable when the column is valid — the Python
code proceeds with the stale `_last_move`, which the `none` branch mirrors.) -/
def Board.makeMove (b : Board) (col : Nat) : Board × Bool :=
  if b.gameOver = true ∨ col ∉ b.getValidMoves then (b, false)
  else
    match findRowDesc b.grid col b.rows with
    | some r =>
      let g := setCell b.grid r col b.currentPlayer.value
      let b1 := { b with grid := g, lastMove := some (r, col) }
      let b2 :=
        if checkWin b1.grid b1.rows b1.cols (some (r, col)) then
          { b1 with gameOver := true, winner := some b1.currentPlayer }
        else if b1.getValidMoves = [] then { b1 with gameOver := true }
        else b1
      ({ b2 with currentPlayer := b2.currentPlayer.nextPlayer }, true)
    | none =>
      let b2 :=
        if checkWin b.grid b.rows b.cols b.lastMove then
          { b with gameOver := true, winner := some b.currentPlayer }
        else if b.getValidMoves = [] then { b with gameOver := true }
        else b
      ({ b2 with currentPlayer := b2.currentPlayer.nextPlayer }, true)

/-- The immutable `GameState` snapshot of `environment/state.py`. -/
structure GameState where
  board : List (List Nat)
  currentPlayer : Player
  lastMove : Option (Nat × Nat)
  gameOver : Bool
  winner : Option Player
deriving DecidableEq

/-- `GameState.get_valid_moves`. -/
def GameState.getValidMoves (s : GameState) : List Nat :=
  validMovesOf (s.board.getD 0 [])

/-- `ConnectFourBoard.get_state`. -/
def Board.getState (b : Board) : GameState :=
  { board := b.grid
    currentPlayer := b.currentPlayer
    lastMove := b.lastMove
    gameOver := b.gameOver
    winner := b.winner }

/-- Shape well-formedness of a board: the grid really is `rows` rows of
`cols` cells, as a numpy array of that shape guarantees. -/
def Board.WF (b : Board) : Prop :=
  b.grid.length = b.rows ∧ ∀ row ∈ b.grid, row.length = b.cols

instance (b : Board) : Decidable b.WF := by
  unfold Board.WF
  infer_instance

/-- One lowercase hex digit, as Python formats `\xNN` escapes. -/
def hexDigitChar (n : Nat) : Char :=
  if n < 10 then Char.ofNat (48 + n) else Char.ofNat (87 + n)

/-- Python's rendering of one byte inside a single-quote-delimited bytes
literal (`repr(bytes)`), assuming the data contains no 0x27 byte so the
single-quote delimiter is used — all bytes produced by the state encoder are
0, 1 or 2. -/
def escByte (b : Nat) : List Char :=
  if b = 9 then ['\\', 't']
  else if b = 10 then ['\\', 'n']
  else if b = 13 then ['\\', 'r']
  else if b = 92 then ['\\', '\\']
  else if 32 ≤ b ∧ b ≤ 126 then [Char.ofNat b]
  else ['\\', 'x', hexDigitChar (b / 16), hexDigitChar (b % 16)]

/-- The eight little-endian bytes of one int64 cell, as `numpy.tobytes`
emits for a `dtype=int` array. -/
def i64le (n : Nat) : List Nat :=
  [n % 256, n / 256 % 256, n / 256 ^ 2 % 256, n / 256 ^ 3 % 256,
   n / 256 ^ 4 % 256, n / 256 ^ 5 % 256, n / 256 ^ 6 % 256, n / 256 ^ 7 % 256]

/-- The bytes of `state.board.tobytes()`: row-major traversal, eight bytes
per cell. -/
def gridBytes (g : List (List Nat)) : List Nat :=
  g.flatten.flatMap i64le

/-- The characters of `repr` of a bytes object: `b`, a quote, the escaped
bytes, a closing quote. -/
def bytesReprChars (bs : List Nat) : List Char :=
  ['b', Char.ofNat 39] ++ bs.flatMap escByte ++ [Char.ofNat 39]

/-- `SparseQTable._get_state_key`: the f-string
`f"{state.board.tobytes()}{state.current_player.value}"`. -/
def stateKey (s : GameState) : String :=
  String.mk (bytesReprChars (gridBytes s.board) ++ (toString s.currentPlayer.value).data)

/-- `SparseQTable`: the insertion-ordered dict `_q_values` mapping state key
to a numpy vector of action values (default value 0.0). -/
structure SparseQTable where
  qValues : List (String × List ℚ)
deriving DecidableEq

/-- `SparseQTable.get_value`: materialize a fresh 7-entry zero vector if the
key is absent, then return the action-indexed value.  The returned pair
carries the possibly-enlarged table, since the Python method mutates it. -/
def SparseQTable.getValue (t : SparseQTable) (s : GameState) (a : Nat) :
    ℚ × SparseQTable :=
  let k := stateKey s
  let t1 : SparseQTable :=
    if (t.qValues.lookup k).isSome then t
    else ⟨t.qValues ++ [(k, List.replicate 7 0)]⟩
  (((t1.qValues.lookup k).getD []).getD a 0, t1)

/-- `SparseQTable.set_value`: same lazy materialization, then overwrite the
action-indexed entry. -/
def SparseQTable.setValue (t : SparseQTable) (s : GameState) (a : Nat) (v : ℚ) :
    SparseQTable :=
  let k := stateKey s
  let t1 : SparseQTable :=
    if (t.qValues.lookup k).isSome then t
    else ⟨t.qValues ++ [(k, List.replicate 7 0)]⟩
  ⟨t1.qValues.map (fun kv => if kv.1 = k then (kv.1, kv.2.set a v) else kv)⟩

/-- The `AgentConfig` dataclass of `sparse_q_learning/config.py`. -/
structure AgentConfig where
  learningRate : ℚ
  discountFactor : ℚ
  initialEpsilon : ℚ
  epsilonDecay : ℚ
  minEpsilon : ℚ
deriving DecidableEq

/-- The `__post_init__` validation: only the learning rate and the discount
factor are range-checked; epsilon parameters are not. -/
def AgentConfig.valid (c : AgentConfig) : Prop :=
  0 ≤ c.learningRate ∧ c.learningRate ≤ 1 ∧ 0 ≤ c.discountFactor ∧ c.discountFactor ≤ 1

instance (c : AgentConfig) : Decidable c.valid := by
  unfold AgentConfig.valid
  infer_instance

/-- The mutable state of a `QLearningAgent`: its config, table and epsilon. -/
structure QLearningAgent where
  config : AgentConfig
  qTable : SparseQTable
  epsilon : ℚ
deriving DecidableEq

/-- `QLearningAgent.__init__`: fresh table, epsilon at its initial value. -/
def mkAgent (c : AgentConfig) : QLearningAgent :=
  { config := c, qTable := ⟨[]⟩, epsilon := c.initialEpsilon }

/-- The list comprehension `[q_table.get_value(state, a) for a in actions]`,
threading the table through the mutating reads. -/
def getValuesAux (t : SparseQTable) (s : GameState) : List Nat → List ℚ × SparseQTable
  | [] => ([], t)
  | a :: rest =>
    let r1 := t.getValue s a
    let r2 := getValuesAux r1.2 s rest
    (r1.1 :: r2.1, r2.2)

/-- The `q_values` list of `choose_action`: one table read per column in
`range(7)`. -/
def qValuesOf (t : SparseQTable) (s : GameState) : List ℚ × SparseQTable :=
  getValuesAux t s (List.range 7)

/-- The values after the loop `q_values[i] = float("-inf") for i not in
valid_moves`, with `-inf` modelled as `⊥`. -/
def adjustedQValues (t : SparseQTable) (s : GameState) : List (WithBot ℚ) :=
  (qValuesOf t s).1.enum.map
    (fun p => if p.1 ∈ s.getValidMoves then (p.2 : WithBot ℚ) else ⊥)

/-- `np.argmax` on a list: index of the first occurrence of the maximum
(numpy documents the first-occurrence tie break); 0 on the empty list. -/
def argmaxIdx : List (WithBot ℚ) → Nat
  | [] => 0
  | v :: rest =>
    let r := argmaxIdx rest
    if v < rest.getD r ⊥ then r + 1 else 0

/-- The exploitation branch of `QLearningAgent.choose_action` — the path
taken when the epsilon draw does not trigger exploration: the arg-max column
of the adjusted values, plus the table as mutated by the reads. -/
def chooseActionExploit (ag : QLearningAgent) (s : GameState) : Nat × SparseQTable :=
  (argmaxIdx (adjustedQValues ag.qTable s), (qValuesOf ag.qTable s).2)

/-- The evaluation of `max(q_table.get_value(next_state, a) for a in moves)`
as a running maximum over the mutating reads. -/
def maxGetValues (t : SparseQTable) (ns : GameState) : List Nat → ℚ → ℚ × SparseQTable
  | [], acc => (acc, t)
  | m :: ms, acc =>
    let r := t.getValue ns m
    maxGetValues r.2 ns ms (max acc r.1)

/-- The `next_q` computation of `learn` with its table threading.  `none`
models the `ValueError` Python raises for `max` over an empty sequence: the
next state non-terminal with no valid moves. -/
def nextQTable (t : SparseQTable) (ns : GameState) : Option (ℚ × SparseQTable) :=
  if ns.gameOver = true then some (0, t)
  else
    match ns.getValidMoves with
    | [] => none
    | m :: ms =>
      let r1 := t.getValue ns m
      some (maxGetValues r1.2 ns ms r1.1)

/-- `QLearningAgent.learn`: TD update followed by the epsilon decay, or
`none` when the `next_q` computation raises.  `current_q` is the value read
by the initial `get_value` call; the table it returns feeds the `next_q`
reads. -/
def QLearningAgent.learn (ag : QLearningAgent) (s : GameState) (a : Nat)
    (reward : ℚ) (ns : GameState) : Option QLearningAgent :=
  match nextQTable (ag.qTable.getValue s a).2 ns with
  | none => none
  | some (nextQ, t2) =>
    let currentQ := (ag.qTable.getValue s a).1
    let newQ := currentQ + ag.config.learningRate *
      (reward + ag.config.discountFactor * nextQ - currentQ)
    some { config := ag.config, qTable := t2.setValue s a newQ,
           epsilon := max ag.config.minEpsilon (ag.epsilon * ag.config.epsilonDecay) }

/-- Arguments of one `learn` call. -/
structure LearnArgs where
  state : GameState
  action : Nat
  reward : ℚ
  nextState : GameState
deriving DecidableEq

/-- A sequence of completed `learn` calls. -/
def applyLearns : QLearningAgent → List LearnArgs → Option QLearningAgent
  | ag, [] => some ag
  | ag, x :: xs =>
    match ag.learn x.state x.action x.reward x.nextState with
    | none => none
    | some ag1 => applyLearns ag1 xs

/-- JSON documents as written by `json.dump` and read back by `json.load`
(numbers as rationals, object member order preserved). -/
inductive Json where
  | num : ℚ → Json
  | str : String → Json
  | arr : List Json → Json
  | obj : List (String × Json) → Json

/-- `SparseQTable.save`: the document
`{key: values.tolist() for key, values in q_values.items()}`. -/
def SparseQTable.save (t : SparseQTable) : Json :=
  Json.obj (t.qValues.map (fun kv => (kv.1, Json.arr (kv.2.map Json.num))))

/-- Reading one serialized vector back (`np.array(values)` on the decoded
list); `none` if the document value is not an array of numbers. -/
def floatsOfJson : Json → Option (List ℚ)
  | Json.arr [] => some []
  | Json.arr (Json.num q :: rest) =>
    match floatsOfJson (Json.arr rest) with
    | some v => some (q :: v)
    | none => none
  | _ => none

/-- Reading the whole mapping back, entry by entry. -/
def tableOfJson : List (String × Json) → Option (List (String × List ℚ))
  | [] => some []
  | (k, j) :: rest =>
    match floatsOfJson j, tableOfJson rest with
    | some v, some es => some ((k, v) :: es)
    | _, _ => none

/-- `SparseQTable.load`: decode the document into a fresh `_q_values`
mapping; `none` on a document that is not an object of numeric arrays. -/
def SparseQTable.load (j : Json) : Option SparseQTable :=
  match j with
  | Json.obj entries => (tableOfJson entries).map SparseQTable.mk
  | _ => none

/-- Number of occupied cells in one column — the `k` of the gravity law. -/
def colCount (b : Board) (col : Nat) : Nat :=
  (List.range b.rows).countP (fun r => !(getCell b.grid r col == 0))

/-- Number of cells of the grid holding the value `v`. -/
def countVal (g : List (List Nat)) (v : Nat) : Nat :=
  g.flatten.count v

/-- Boards reachable from a fresh board by any sequence of `make_move`
calls (valid or not). -/
inductive Reachable : Board → Prop where
  | base (rows cols : Nat) : Reachable (mkBoard rows cols)
  | step (b : Board) (col : Nat) : Reachable b → Reachable (b.makeMove col).1

/-- The inductive invariant of reachable boards: shape well-formedness,
cell values at most 2, bottom-packed columns, a live current player, and
the token-count balance tied to whose turn it is. -/
structure Inv (b : Board) : Prop where
  wf : b.WF
  cells : ∀ r c, getCell b.grid r c ≤ 2
  packed : ∀ c r r', r < r' → r' < b.rows → getCell b.grid r c ≠ 0 →
    getCell b.grid r' c ≠ 0
  cur : b.currentPlayer = .p1 ∨ b.currentPlayer = .p2
  balance1 : b.currentPlayer = .p1 → countVal b.grid 1 = countVal b.grid 2
  balance2 : b.currentPlayer = .p2 → countVal b.grid 1 = countVal b.grid 2 + 1

/-- Membership in the valid-move list: exactly the in-range columns whose
top-row cell is empty. -/
theorem mem_validMovesOf {topRow : List Nat} {c : Nat} :
    c ∈ validMovesOf topRow ↔ c < topRow.length ∧ topRow.getD c 1 = 0 := by
  unfold validMovesOf
  constructor
  · intro h
    rcases List.mem_map.1 h with ⟨p, hp, rfl⟩
    rcases List.mem_filter.1 hp with ⟨hmem, hv⟩
    rw [List.mem_enum_iff_getElem?] at hmem
    have hlt : p.1 < topRow.length := by
      by_contra hge
      rw [List.getElem?_eq_none (by omega)] at hmem
      exact Option.noConfusion hmem
    have hval : topRow[p.1] = p.2 := by
      rw [List.getElem?_eq_getElem hlt] at hmem
      injection hmem
    have hz : p.2 = 0 := by simpa using hv
    exact ⟨hlt, by rw [List.getD_eq_getElem topRow 1 hlt, hval, hz]⟩
  · rintro ⟨hlt, hz⟩
    refine List.mem_map.2 ⟨(c, topRow.get ⟨c, hlt⟩), List.mem_filter.2 ⟨?_, ?_⟩, rfl⟩
    · rw [List.mem_enum_iff_getElem?, List.getElem?_eq_getElem hlt]
      simp
    · have hc : topRow.get ⟨c, hlt⟩ = 0 := by
        rw [List.getD_eq_getElem topRow 1 hlt] at hz
        simpa using hz
      simpa using hc

/-- Length of the top row of a well-formed board is at most `cols`
(it equals `cols` unless the grid is empty). -/
theorem topRow_length_le (b : Board) (hwf : b.WF) :
    (b.grid.getD 0 []).length ≤ b.cols := by
  cases hg : b.grid with
  | nil => simp
  | cons r t =>
    have hr : r.length = b.cols := hwf.2 r (by rw [hg]; exact List.mem_cons_self r t)
    simp [hg, hr]

/-- C2: on a well-formed board, `make_move` with an out-of-range column, a
full column, or an already-terminal game returns `false` and leaves the whole
board state (grid, current player, last move, terminal flag, winner)
unchanged. -/
theorem makeMove_invalid_unchanged (b : Board) (col : Nat) (hwf : b.WF)
    (h : b.cols ≤ col ∨ getCell b.grid 0 col ≠ 0 ∨ b.gameOver = true) :
    b.makeMove col = (b, false) := by
  have hnot : b.gameOver = true ∨ col ∉ b.getValidMoves := by
    rcases h with h | h | h
    · right
      intro hmem
      rcases mem_validMovesOf.1 hmem with ⟨hlt, _⟩
      have hle := topRow_length_le b hwf
      omega
    · right
      intro hmem
      rcases mem_validMovesOf.1 hmem with ⟨hlt, hz⟩
      apply h
      show (b.grid.getD 0 []).getD col 0 = 0
      rw [List.getD_eq_getElem _ 0 hlt]
      rw [List.getD_eq_getElem _ 1 hlt] at hz
      exact hz
    · left
      exact h
  unfold Board.makeMove
  rw [if_pos hnot]

/-- Witness for C2 at a concrete input: a fresh 6×7 board and the
out-of-range column 9. -/
theorem makeMove_invalid_unchanged_witness :
    (mkBoard 6 7).WF ∧ (mkBoard 6 7).makeMove 9 = (mkBoard 6 7, false) :=
  ⟨by decide, makeMove_invalid_unchanged (mkBoard 6 7) 9 (by decide)
    (Or.inl (by decide))⟩

/-- Appending a fresh binding is found by lookup when the key was absent. -/
theorem lookup_append_self {l : List (String × List ℚ)} {k : String} {v : List ℚ}
    (h : l.lookup k = none) : (l ++ [(k, v)]).lookup k = some v := by
  induction l with
  | nil => simp [List.lookup]
  | cons p tl ih =>
    rw [List.lookup] at h
    rcases hbeq : (k == p.1) with _ | _
    · rw [hbeq] at h
      simp only [List.cons_append, List.lookup, hbeq]
      exact ih h
    · rw [hbeq] at h
      exact Option.noConfusion h

/-- Appending a fresh binding does not change lookups of other keys. -/
theorem lookup_append_other {l : List (String × List ℚ)} {k k' : String} {v : List ℚ}
    (hne : k' ≠ k) : (l ++ [(k, v)]).lookup k' = l.lookup k' := by
  induction l with
  | nil =>
    have hb : (k' == k) = false := beq_false_of_ne hne
    simp [List.lookup, hb]
  | cons p tl ih =>
    rcases hbeq : (k' == p.1) with _ | _
    · simp only [List.cons_append, List.lookup, hbeq]
      exact ih
    · simp only [List.cons_append, List.lookup, hbeq]

/-- C8 (amended): `get_value` on an absent key returns 0.0, materializes the
all-zero vector of length 7 for that key, and leaves every other key's
binding untouched. -/
theorem getValue_absent (t : SparseQTable) (s : GameState) (a : Nat)
    (habs : t.qValues.lookup (stateKey s) = none) (ha : a < 7) :
    (t.getValue s a).1 = 0 ∧
    (t.getValue s a).2.qValues.lookup (stateKey s) = some (List.replicate 7 0) ∧
    ∀ k, k ≠ stateKey s → (t.getValue s a).2.qValues.lookup k = t.qValues.lookup k := by
  have hsome : (t.qValues.lookup (stateKey s)).isSome = false := by
    rw [habs]
    rfl
  unfold SparseQTable.getValue
  simp only [hsome, Bool.false_eq_true, if_false]
  have hfound := lookup_append_self (l := t.qValues) (k := stateKey s)
    (v := List.replicate 7 0) habs
  refine ⟨?_, hfound, ?_⟩
  · rw [hfound]
    simp only [Option.getD_some]
    interval_cases a <;> rfl
  · intro k hk
    exact lookup_append_other hk

/-- Witness for C8's amended theorem: a concrete absent state on the empty
table. -/
theorem getValue_absent_witness :
    ((SparseQTable.mk []).qValues.lookup
        (stateKey ⟨[[0]], .p1, none, false, none⟩) = none) ∧
    (0 : Nat) < 7 ∧
    (((SparseQTable.mk []).getValue ⟨[[0]], .p1, none, false, none⟩ 0).1 = 0 ∧
      ((SparseQTable.mk []).getValue ⟨[[0]], .p1, none, false, none⟩ 0).2.qValues.lookup
          (stateKey ⟨[[0]], .p1, none, false, none⟩) = some (List.replicate 7 0) ∧
      ∀ k, k ≠ stateKey ⟨[[0]], .p1, none, false, none⟩ →
        ((SparseQTable.mk []).getValue ⟨[[0]], .p1, none, false, none⟩ 0).2.qValues.lookup k =
          (SparseQTable.mk []).qValues.lookup k) :=
  ⟨by decide, by decide,
    getValue_absent (SparseQTable.mk []) ⟨[[0]], .p1, none, false, none⟩ 0 (by decide) (by decide)⟩

/-- C8 counterexample to the claim as stated: on a board with 3 columns the
materialized vector still has length 7, not the board's column count. -/
theorem getValue_absent_length_cex :
    ((((SparseQTable.mk []).getValue ⟨[[0, 0, 0]], .p1, none, false, none⟩ 0).2.qValues.lookup
        (stateKey ⟨[[0, 0, 0]], .p1, none, false, none⟩)).getD []).length = 7 ∧
    (([[0, 0, 0]] : List (List Nat)).getD 0 []).length = 3 ∧ (7 : Nat) ≠ 3 := by
  decide

/-- Bytes 0, 1 and 2 render as four-character `\xNN` escapes. -/
theorem escByte_length {b : Nat} (h : b ≤ 2) : (escByte b).length = 4 := by
  interval_cases b <;> decide

/-- The escape of a byte in 0..2 determines the byte. -/
theorem escByte_inj {b1 b2 : Nat} (h1 : b1 ≤ 2) (h2 : b2 ≤ 2)
    (h : escByte b1 = escByte b2) : b1 = b2 := by
  interval_cases b1 <;> interval_cases b2 <;> revert h <;> decide

/-- The little-endian int64 bytes of a byte-sized value determine it. -/
theorem i64le_inj {n1 n2 : Nat} (h1 : n1 < 256) (h2 : n2 < 256)
    (h : i64le n1 = i64le n2) : n1 = n2 := by
  have hh : n1 % 256 = n2 % 256 := by
    have := congrArg (fun l => l.headD 0) h
    simpa [i64le] using this
  rwa [Nat.mod_eq_of_lt h1, Nat.mod_eq_of_lt h2] at hh

/-- All int64 bytes of a cell value in 0..2 are themselves in 0..2. -/
theorem i64le_bytes_le {n : Nat} (h : n ≤ 2) : ∀ b ∈ i64le n, b ≤ 2 := by
  interval_cases n <;> decide

/-- A flat-map by a function whose images have matching lengths and determine
their arguments is injective on lists of equal length. -/
theorem flatMap_inj_of_len {α β : Type} (f : α → List β) :
    ∀ l1 l2 : List α, l1.length = l2.length →
      (∀ a ∈ l1, ∀ b ∈ l2, (f a).length = (f b).length) →
      (∀ a ∈ l1, ∀ b ∈ l2, f a = f b → a = b) →
      l1.flatMap f = l2.flatMap f → l1 = l2 := by
  intro l1
  induction l1 with
  | nil =>
    intro l2 hlen _ _ _
    cases l2 with
    | nil => rfl
    | cons b u => simp at hlen
  | cons a t ih =>
    intro l2 hlen hflen hinj hfm
    cases l2 with
    | nil => simp at hlen
    | cons b u =>
      rw [List.flatMap_cons, List.flatMap_cons] at hfm
      have hl : (f a).length = (f b).length :=
        hflen a (List.mem_cons_self a t) b (List.mem_cons_self b u)
      have hsplit := List.append_inj hfm hl
      have hab : a = b :=
        hinj a (List.mem_cons_self a t) b (List.mem_cons_self b u) hsplit.1
      subst hab
      have htu : t = u :=
        ih u (by simpa using hlen)
          (fun x hx y hy => hflen x (List.mem_cons_of_mem a hx) y (List.mem_cons_of_mem a hy))
          (fun x hx y hy => hinj x (List.mem_cons_of_mem a hx) y (List.mem_cons_of_mem a hy))
          hsplit.2
      rw [htu]

/-- Flattening a grid whose rows all have the same length is injective given
equal row counts. -/
theorem flatten_inj_rows {C : Nat} :
    ∀ g1 g2 : List (List Nat), (∀ r ∈ g1, r.length = C) → (∀ r ∈ g2, r.length = C) →
      g1.length = g2.length → g1.flatten = g2.flatten → g1 = g2 := by
  intro g1
  induction g1 with
  | nil =>
    intro g2 _ _ hlen _
    cases g2 with
    | nil => rfl
    | cons r u => simp at hlen
  | cons r t ih =>
    intro g2 h1 h2 hlen hj
    cases g2 with
    | nil => simp at hlen
    | cons r2 u =>
      rw [List.flatten_cons, List.flatten_cons] at hj
      have hl : r.length = r2.length := by
        rw [h1 r (List.mem_cons_self r t), h2 r2 (List.mem_cons_self r2 u)]
      have hsplit := List.append_inj hj hl
      rw [hsplit.1, ih u (fun x hx => h1 x (List.mem_cons_of_mem r hx))
        (fun x hx => h2 x (List.mem_cons_of_mem r2 hx)) (by simpa using hlen) hsplit.2]

/-- Length of the escaped byte run: four characters per byte. -/
theorem flatMap_escByte_length {bs : List Nat} (h : ∀ b ∈ bs, b ≤ 2) :
    (bs.flatMap escByte).length = 4 * bs.length := by
  induction bs with
  | nil => simp
  | cons b t ih =>
    rw [List.flatMap_cons, List.length_append, escByte_length (h b (List.mem_cons_self b t)),
      ih (fun x hx => h x (List.mem_cons_of_mem b hx))]
    simp [Nat.mul_succ]
    omega

/-- Length of the int64 byte run: eight bytes per cell. -/
theorem flatMap_i64le_length (l : List Nat) : (l.flatMap i64le).length = 8 * l.length := by
  induction l with
  | nil => simp
  | cons b t ih =>
    rw [List.flatMap_cons, List.length_append, ih]
    simp [i64le]
    omega

/-- Length of a flattened grid whose rows all have length `C`. -/
theorem flatten_length_eq {g : List (List Nat)} {C : Nat} (h : ∀ r ∈ g, r.length = C) :
    g.flatten.length = g.length * C := by
  induction g with
  | nil => simp
  | cons r t ih =>
    rw [List.flatten_cons, List.length_append, h r (List.mem_cons_self r t),
      ih (fun x hx => h x (List.mem_cons_of_mem r hx))]
    simp [Nat.succ_mul]
    omega

/-- All bytes of the encoded grid are in 0..2 when all cells are. -/
theorem gridBytes_le {g : List (List Nat)} (h : ∀ r ∈ g, ∀ v ∈ r, v ≤ 2) :
    ∀ b ∈ gridBytes g, b ≤ 2 := by
  intro b hb
  rcases List.mem_flatMap.1 hb with ⟨n, hn, hbn⟩
  rcases List.mem_flatten.1 hn with ⟨r, hr, hnr⟩
  exact i64le_bytes_le (h r hr n hnr) b hbn

/-- The decimal digit appended for the current player determines the player. -/
theorem player_digit_inj {pa pb : Player}
    (h : (toString pa.value).data = (toString pb.value).data) : pa = pb := by
  cases pa <;> cases pb <;> first | rfl | exact absurd h (by decide)

/-- C3: the state key is deterministic — a pure function of grid contents
and current player, ignoring last move, terminal flag and winner — and
injective over (grid, current player) for snapshots of a common board shape
with cell values in 0..2. -/
theorem stateKey_deterministic_injective :
    (∀ s1 s2 : GameState, s1.board = s2.board → s1.currentPlayer = s2.currentPlayer →
        stateKey s1 = stateKey s2) ∧
    (∀ (C : Nat) (s1 s2 : GameState),
        s1.board.length = s2.board.length →
        (∀ r ∈ s1.board, r.length = C) → (∀ r ∈ s2.board, r.length = C) →
        (∀ r ∈ s1.board, ∀ v ∈ r, v ≤ 2) → (∀ r ∈ s2.board, ∀ v ∈ r, v ≤ 2) →
        stateKey s1 = stateKey s2 →
        s1.board = s2.board ∧ s1.currentPlayer = s2.currentPlayer) := by
  constructor
  · intro s1 s2 hb hp
    unfold stateKey
    rw [hb, hp]
  · intro C s1 s2 hlen h1 h2 hc1 hc2 hkey
    have hb1 := gridBytes_le hc1
    have hb2 := gridBytes_le hc2
    have hflatlen : s1.board.flatten.length = s2.board.flatten.length := by
      rw [flatten_length_eq h1, flatten_length_eq h2, hlen]
    have hbyteslen : (gridBytes s1.board).length = (gridBytes s2.board).length := by
      unfold gridBytes
      rw [flatMap_i64le_length, flatMap_i64le_length, hflatlen]
    have hchars : bytesReprChars (gridBytes s1.board) ++ (toString s1.currentPlayer.value).data
        = bytesReprChars (gridBytes s2.board) ++ (toString s2.currentPlayer.value).data := by
      have hdata := congrArg String.data hkey
      simpa [stateKey] using hdata
    rw [bytesReprChars, bytesReprChars] at hchars
    simp only [List.append_assoc, List.cons_append, List.nil_append, List.singleton_append,
      List.cons.injEq, true_and] at hchars
    have hElen : ((gridBytes s1.board).flatMap escByte).length
        = ((gridBytes s2.board).flatMap escByte).length := by
      rw [flatMap_escByte_length hb1, flatMap_escByte_length hb2, hbyteslen]
    have hsplit := List.append_inj hchars hElen
    have hdig : (toString s1.currentPlayer.value).data
        = (toString s2.currentPlayer.value).data := by
      have := hsplit.2
      injection this
    have hplayer : s1.currentPlayer = s2.currentPlayer := player_digit_inj hdig
    have hbytes : gridBytes s1.board = gridBytes s2.board :=
      flatMap_inj_of_len escByte _ _ hbyteslen
        (fun a ha b hb => by rw [escByte_length (hb1 a ha), escByte_length (hb2 b hb)])
        (fun a ha b hb => escByte_inj (hb1 a ha) (hb2 b hb))
        hsplit.1
    have hcell1 : ∀ v ∈ s1.board.flatten, v ≤ 2 := by
      intro v hv
      rcases List.mem_flatten.1 hv with ⟨r, hr, hvr⟩
      exact hc1 r hr v hvr
    have hcell2 : ∀ v ∈ s2.board.flatten, v ≤ 2 := by
      intro v hv
      rcases List.mem_flatten.1 hv with ⟨r, hr, hvr⟩
      exact hc2 r hr v hvr
    have hflat : s1.board.flatten = s2.board.flatten :=
      flatMap_inj_of_len i64le _ _ hflatlen
        (fun a _ b _ => rfl)
        (fun a ha b hb => i64le_inj (by have := hcell1 a ha; omega)
          (by have := hcell2 b hb; omega))
        hbytes
    exact ⟨flatten_inj_rows s1.board s2.board h1 h2 hlen hflat, hplayer⟩

/-- Witness for C3 at concrete inputs: two snapshots of a 1×1 grid that share
grid and turn but differ in construction history (last move and terminal
flag) have equal keys, and that equality forces their grid and player to
agree. -/
theorem stateKey_deterministic_injective_witness :
    ((⟨[[1]], .p2, none, false, none⟩ : GameState).board.length
        = (⟨[[1]], .p2, some (0, 0), true, none⟩ : GameState).board.length) ∧
    stateKey ⟨[[1]], .p2, none, false, none⟩ = stateKey ⟨[[1]], .p2, some (0, 0), true, none⟩ ∧
    ((⟨[[1]], .p2, none, false, none⟩ : GameState).board
        = (⟨[[1]], .p2, some (0, 0), true, none⟩ : GameState).board ∧
      (⟨[[1]], .p2, none, false, none⟩ : GameState).currentPlayer
        = (⟨[[1]], .p2, some (0, 0), true, none⟩ : GameState).currentPlayer) :=
  ⟨rfl, rfl,
    stateKey_deterministic_injective.2 1 ⟨[[1]], .p2, none, false, none⟩
      ⟨[[1]], .p2, some (0, 0), true, none⟩ rfl (by decide) (by decide) (by decide) (by decide)
      rfl⟩

/-- Unfolding equation for `argmaxIdx` on a nonempty list. -/
theorem argmaxIdx_cons (v : WithBot ℚ) (rest : List (WithBot ℚ)) :
    argmaxIdx (v :: rest) =
      if v < rest.getD (argmaxIdx rest) ⊥ then argmaxIdx rest + 1 else 0 := rfl

/-- The arg-max index is within the list. -/
theorem argmaxIdx_lt_length : ∀ l : List (WithBot ℚ), l ≠ [] → argmaxIdx l < l.length := by
  intro l hne
  cases l with
  | nil => exact absurd rfl hne
  | cons v rest =>
    rw [argmaxIdx_cons]
    by_cases h : v < rest.getD (argmaxIdx rest) ⊥
    · rw [if_pos h]
      have hrest : rest ≠ [] := by
        intro hr
        subst hr
        simp at h
      have := argmaxIdx_lt_length rest hrest
      simp only [List.length_cons]
      omega
    · rw [if_neg h]
      simp

/-- The value at the arg-max index dominates every entry. -/
theorem argmaxIdx_is_max : ∀ l : List (WithBot ℚ), ∀ j < l.length,
    l.getD j ⊥ ≤ l.getD (argmaxIdx l) ⊥ := by
  intro l
  induction l with
  | nil => intro j hj; simp at hj
  | cons v rest ih =>
    intro j hj
    rw [argmaxIdx_cons]
    by_cases h : v < rest.getD (argmaxIdx rest) ⊥
    · rw [if_pos h]
      rw [List.getD_cons_succ]
      cases j with
      | zero => rw [List.getD_cons_zero]; exact le_of_lt h
      | succ i =>
        rw [List.getD_cons_succ]
        exact ih i (by simpa using hj)
    · rw [if_neg h]
      rw [List.getD_cons_zero]
      cases j with
      | zero => rw [List.getD_cons_zero]
      | succ i =>
        rw [List.getD_cons_succ]
        exact le_trans (ih i (by simpa using hj)) (not_lt.1 h)

/-- Every entry strictly before the arg-max index is strictly below it:
the smallest index wins ties. -/
theorem argmaxIdx_first : ∀ l : List (WithBot ℚ), ∀ j < argmaxIdx l,
    l.getD j ⊥ < l.getD (argmaxIdx l) ⊥ := by
  intro l
  induction l with
  | nil => intro j hj; simp [argmaxIdx] at hj
  | cons v rest ih =>
    intro j hj
    rw [argmaxIdx_cons] at hj ⊢
    by_cases h : v < rest.getD (argmaxIdx rest) ⊥
    · rw [if_pos h] at hj ⊢
      rw [List.getD_cons_succ]
      cases j with
      | zero => rw [List.getD_cons_zero]; exact h
      | succ i =>
        rw [List.getD_cons_succ]
        exact ih i (by omega)
    · rw [if_neg h] at hj
      omega

/-- The read loop returns one value per requested action. -/
theorem getValuesAux_length (s : GameState) :
    ∀ (l : List Nat) (t : SparseQTable), ((getValuesAux t s l).1).length = l.length := by
  intro l
  induction l with
  | nil => intro t; rfl
  | cons a rest ih =>
    intro t
    unfold getValuesAux
    simp [ih]

/-- The adjusted value list always has seven entries. -/
theorem adjustedQValues_length (t : SparseQTable) (s : GameState) :
    (adjustedQValues t s).length = 7 := by
  unfold adjustedQValues qValuesOf
  rw [List.length_map, List.enum_length, getValuesAux_length]
  rfl

/-- C7: in the exploitation branch, for a state with at least one valid
move, the returned column is in range, its adjusted value (table values with
invalid columns forced to `⊥`) dominates every column, and every column
before it is strictly smaller — ties break to the smallest index. -/
theorem chooseActionExploit_argmax (ag : QLearningAgent) (s : GameState)
    (hvm : s.getValidMoves ≠ []) :
    (chooseActionExploit ag s).1 < 7 ∧
    (∀ i < 7, (adjustedQValues ag.qTable s).getD i ⊥ ≤
      (adjustedQValues ag.qTable s).getD ((chooseActionExploit ag s).1) ⊥) ∧
    (∀ i < (chooseActionExploit ag s).1,
      (adjustedQValues ag.qTable s).getD i ⊥ <
        (adjustedQValues ag.qTable s).getD ((chooseActionExploit ag s).1) ⊥) := by
  have hlen := adjustedQValues_length ag.qTable s
  have hne : adjustedQValues ag.qTable s ≠ [] := by
    intro h
    rw [h] at hlen
    simp at hlen
  refine ⟨?_, ?_, ?_⟩
  · have := argmaxIdx_lt_length _ hne
    rw [hlen] at this
    exact this
  · intro i hi
    exact argmaxIdx_is_max _ i (by rw [hlen]; exact hi)
  · intro i hi
    exact argmaxIdx_first _ i hi

/-- Witness for C7 at a concrete input: a fresh agent on a 1×1 empty board,
whose single valid move is column 0. -/
theorem chooseActionExploit_argmax_witness :
    (GameState.getValidMoves ⟨[[0]], .p1, none, false, none⟩ ≠ []) ∧
    ((chooseActionExploit (mkAgent ⟨0, 0, 0, 0, 0⟩) ⟨[[0]], .p1, none, false, none⟩).1 < 7 ∧
      (∀ i < 7,
        (adjustedQValues (mkAgent ⟨0, 0, 0, 0, 0⟩).qTable ⟨[[0]], .p1, none, false, none⟩).getD i ⊥ ≤
          (adjustedQValues (mkAgent ⟨0, 0, 0, 0, 0⟩).qTable ⟨[[0]], .p1, none, false, none⟩).getD
            ((chooseActionExploit (mkAgent ⟨0, 0, 0, 0, 0⟩) ⟨[[0]], .p1, none, false, none⟩).1) ⊥) ∧
      (∀ i < (chooseActionExploit (mkAgent ⟨0, 0, 0, 0, 0⟩) ⟨[[0]], .p1, none, false, none⟩).1,
        (adjustedQValues (mkAgent ⟨0, 0, 0, 0, 0⟩).qTable ⟨[[0]], .p1, none, false, none⟩).getD i ⊥ <
          (adjustedQValues (mkAgent ⟨0, 0, 0, 0, 0⟩).qTable ⟨[[0]], .p1, none, false, none⟩).getD
            ((chooseActionExploit (mkAgent ⟨0, 0, 0, 0, 0⟩) ⟨[[0]], .p1, none, false, none⟩).1) ⊥)) :=
  ⟨by decide,
    chooseActionExploit_argmax (mkAgent ⟨0, 0, 0, 0, 0⟩) ⟨[[0]], .p1, none, false, none⟩
      (by decide)⟩

/-- An all-`⊥` list arg-maxes at index 0. -/
theorem argmaxIdx_all_bot (l : List (WithBot ℚ)) (h : ∀ x ∈ l, x = ⊥) :
    argmaxIdx l = 0 := by
  cases l with
  | nil => rfl
  | cons v rest =>
    have hv : rest.getD (argmaxIdx rest) ⊥ = ⊥ := by
      rcases Nat.lt_or_ge (argmaxIdx rest) rest.length with hlt | hge
      · rw [List.getD_eq_getElem _ _ hlt]
        exact h _ (List.mem_cons_of_mem v (List.getElem_mem hlt))
      · rw [List.getD_eq_default _ _ hge]
    rw [argmaxIdx_cons, hv]
    simp

/-- C10: for a state with no valid moves, the exploitation branch of
`choose_action` completes: every column's value is forced to `⊥`, the
arg-max returns column 0, and column 0 is not a valid move. -/
theorem chooseActionExploit_no_moves (ag : QLearningAgent) (s : GameState)
    (hvm : s.getValidMoves = []) :
    (chooseActionExploit ag s).1 = 0 ∧ 0 ∉ s.getValidMoves := by
  constructor
  · unfold chooseActionExploit
    refine argmaxIdx_all_bot _ ?_
    intro x hx
    rcases List.mem_map.1 hx with ⟨p, _, rfl⟩
    rw [hvm]
    simp
  · rw [hvm]
    exact List.not_mem_nil 0

/-- Witness for C10 at a concrete input: a 1×1 board whose only column is
full. -/
theorem chooseActionExploit_no_moves_witness :
    GameState.getValidMoves ⟨[[2]], .p1, none, false, none⟩ = [] ∧
    ((chooseActionExploit (mkAgent ⟨0, 0, 0, 0, 0⟩) ⟨[[2]], .p1, none, false, none⟩).1 = 0 ∧
      0 ∉ GameState.getValidMoves ⟨[[2]], .p1, none, false, none⟩) :=
  ⟨by decide,
    chooseActionExploit_no_moves (mkAgent ⟨0, 0, 0, 0, 0⟩) ⟨[[2]], .p1, none, false, none⟩
      (by decide)⟩

/-- C1 (amended): `learn` on a non-terminal next state with no valid moves
raises (the `max` of an empty sequence) instead of treating the state as
terminal. -/
theorem learn_empty_nonterminal_raises (ag : QLearningAgent) (s : GameState) (a : Nat)
    (reward : ℚ) (ns : GameState) (hterm : ns.gameOver = false)
    (hvm : ns.getValidMoves = []) :
    ag.learn s a reward ns = none := by
  unfold QLearningAgent.learn nextQTable
  rw [hterm, hvm]
  rfl

/-- Witness for C1's amended theorem at a concrete input. -/
theorem learn_empty_nonterminal_raises_witness :
    GameState.gameOver ⟨[[2]], .p2, none, false, none⟩ = false ∧
    GameState.getValidMoves ⟨[[2]], .p2, none, false, none⟩ = [] ∧
    (mkAgent ⟨0, 0, 0, 0, 0⟩).learn ⟨[[0]], .p1, none, false, none⟩ 0 0
      ⟨[[2]], .p2, none, false, none⟩ = none :=
  ⟨rfl, by decide,
    learn_empty_nonterminal_raises (mkAgent ⟨0, 0, 0, 0, 0⟩) ⟨[[0]], .p1, none, false, none⟩ 0 0
      ⟨[[2]], .p2, none, false, none⟩ rfl (by decide)⟩

/-- C1 counterexample to the claim as stated: at a non-terminal next state
with no valid moves, the `learn` call does not complete — it raises. -/
theorem learn_empty_nonterminal_cex :
    GameState.gameOver ⟨[[1]], .p1, none, false, none⟩ = false ∧
    GameState.getValidMoves ⟨[[1]], .p1, none, false, none⟩ = [] ∧
    (mkAgent ⟨1/10, 95/100, 1, 995/1000, 1/100⟩).learn ⟨[[0]], .p1, none, false, none⟩ 0 0
      ⟨[[1]], .p1, none, false, none⟩ = none := by
  refine ⟨rfl, by decide, ?_⟩
  decide

/-- One completed `learn` call updates epsilon by
`max(min_epsilon, epsilon * epsilon_decay)` and keeps the config. -/
theorem learn_epsilon_config (ag : QLearningAgent) (s : GameState) (a : Nat) (reward : ℚ)
    (ns : GameState) (ag' : QLearningAgent) (h : ag.learn s a reward ns = some ag') :
    ag'.epsilon = max ag.config.minEpsilon (ag.epsilon * ag.config.epsilonDecay) ∧
    ag'.config = ag.config := by
  unfold QLearningAgent.learn at h
  cases hnq : nextQTable (ag.qTable.getValue s a).2 ns with
  | none =>
    rw [hnq] at h
    exact Option.noConfusion h
  | some p =>
    rw [hnq] at h
    cases p with
    | mk q t =>
      injection h with h
      rw [← h]
      exact ⟨rfl, rfl⟩

/-- Epsilon after any sequence of completed `learn` calls, from any starting
epsilon at least the floor, with decay in [0, 1] and a nonnegative floor. -/
theorem applyLearns_epsilon :
    ∀ (args : List LearnArgs) (ag ag' : QLearningAgent),
      0 ≤ ag.config.epsilonDecay → ag.config.epsilonDecay ≤ 1 →
      0 ≤ ag.config.minEpsilon → ag.config.minEpsilon ≤ ag.epsilon →
      applyLearns ag args = some ag' →
      ag'.epsilon = max ag.config.minEpsilon
        (ag.epsilon * ag.config.epsilonDecay ^ args.length) := by
  intro args
  induction args with
  | nil =>
    intro ag ag' hd0 hd1 hm0 hme h
    unfold applyLearns at h
    injection h with h
    rw [← h, List.length_nil, pow_zero, mul_one]
    exact (max_eq_right hme).symm
  | cons x xs ih =>
    intro ag ag' hd0 hd1 hm0 hme h
    unfold applyLearns at h
    cases hl : ag.learn x.state x.action x.reward x.nextState with
    | none =>
      rw [hl] at h
      exact Option.noConfusion h
    | some ag1 =>
      rw [hl] at h
      simp only at h
      have hec := learn_epsilon_config ag _ _ _ _ ag1 hl
      have ih' := ih ag1 ag' (by rw [hec.2]; exact hd0) (by rw [hec.2]; exact hd1)
        (by rw [hec.2]; exact hm0) (by rw [hec.2, hec.1]; exact le_max_left _ _) h
      rw [ih', hec.2, hec.1, List.length_cons]
      have hdn : (0 : ℚ) ≤ ag.config.epsilonDecay ^ xs.length := pow_nonneg hd0 _
      rw [max_mul_of_nonneg _ _ hdn, ← max_assoc]
      have hmm : max ag.config.minEpsilon
          (ag.config.minEpsilon * ag.config.epsilonDecay ^ xs.length)
          = ag.config.minEpsilon :=
        max_eq_left (mul_le_of_le_one_right hm0 (pow_le_one₀ hd0 hd1))
      rw [hmm, mul_assoc, ← pow_succ']

/-- C6 (amended): for a configuration with decay in [0, 1] and
0 ≤ min_epsilon ≤ initial_epsilon, after N completed `learn` calls the
epsilon of a fresh agent equals `max(min_epsilon, initial_epsilon * decay^N)`. -/
theorem epsilon_after_learns (c : AgentConfig) (args : List LearnArgs)
    (ag' : QLearningAgent)
    (hd0 : 0 ≤ c.epsilonDecay) (hd1 : c.epsilonDecay ≤ 1)
    (hm0 : 0 ≤ c.minEpsilon) (hme : c.minEpsilon ≤ c.initialEpsilon)
    (h : applyLearns (mkAgent c) args = some ag') :
    ag'.epsilon = max c.minEpsilon (c.initialEpsilon * c.epsilonDecay ^ args.length) :=
  applyLearns_epsilon args (mkAgent c) ag' hd0 hd1 hm0 hme h

/-- Witness for C6's amended theorem: the default configuration and a single
completed `learn` call on a terminal next state. -/
theorem epsilon_after_learns_witness :
    (0 : ℚ) ≤ (995 / 1000 : ℚ) ∧ (995 / 1000 : ℚ) ≤ 1 ∧
    (0 : ℚ) ≤ (1 / 100 : ℚ) ∧ (1 / 100 : ℚ) ≤ 1 ∧
    ((applyLearns (mkAgent ⟨1/10, 95/100, 1, 995/1000, 1/100⟩)
        [⟨⟨[[0]], .p1, none, false, none⟩, 0, 0, ⟨[[1]], .p1, none, true, none⟩⟩]).getD
      (mkAgent ⟨1/10, 95/100, 1, 995/1000, 1/100⟩)).epsilon
      = max (1/100 : ℚ) ((1 : ℚ) * (995/1000 : ℚ) ^
          ([⟨⟨[[0]], .p1, none, false, none⟩, 0, 0,
              ⟨[[1]], .p1, none, true, none⟩⟩] : List LearnArgs).length) :=
  ⟨by norm_num, by norm_num, by norm_num, by norm_num,
    epsilon_after_learns ⟨1/10, 95/100, 1, 995/1000, 1/100⟩ _ _
      (by norm_num) (by norm_num) (by norm_num) (by norm_num)
      (by simp [applyLearns, QLearningAgent.learn, nextQTable])⟩

/-- C6 counterexample to the claim as stated: the constructible configuration
with epsilon_decay = 2, min_epsilon = 1, initial_epsilon = 0 passes the
config validation, yet after two completed `learn` calls epsilon is 2 while
the claimed formula gives 1. -/
theorem epsilon_formula_cex :
    AgentConfig.valid ⟨1/10, 95/100, 0, 2, 1⟩ ∧
    (applyLearns (mkAgent ⟨1/10, 95/100, 0, 2, 1⟩)
        [⟨⟨[[0]], .p1, none, false, none⟩, 0, 0, ⟨[[1]], .p1, none, true, none⟩⟩,
         ⟨⟨[[0]], .p1, none, false, none⟩, 0, 0, ⟨[[1]], .p1, none, true, none⟩⟩]).map
      QLearningAgent.epsilon = some 2 ∧
    max (1 : ℚ) ((0 : ℚ) * (2 : ℚ) ^ 2) = 1 ∧ (2 : ℚ) ≠ 1 := by
  refine ⟨by norm_num [AgentConfig.valid], ?_, by norm_num, by norm_num⟩
  simp [applyLearns, QLearningAgent.learn, nextQTable, mkAgent]

/-- A serialized vector decodes to itself. -/
theorem floatsOfJson_roundtrip : ∀ v : List ℚ,
    floatsOfJson (Json.arr (v.map Json.num)) = some v := by
  intro v
  induction v with
  | nil => simp [floatsOfJson]
  | cons q rest ih => simp [floatsOfJson, ih]

/-- A serialized mapping decodes to itself. -/
theorem tableOfJson_roundtrip : ∀ es : List (String × List ℚ),
    tableOfJson (es.map (fun kv => (kv.1, Json.arr (kv.2.map Json.num)))) = some es := by
  intro es
  induction es with
  | nil => rfl
  | cons kv rest ih => simp [tableOfJson, floatsOfJson_roundtrip, ih]

/-- C4: `save` then `load` reconstructs the table exactly — the same key
set in the same order and, for every key, the numerically identical vector
of action values. -/
theorem save_load_roundtrip (t : SparseQTable) :
    SparseQTable.load t.save = some t := by
  unfold SparseQTable.save SparseQTable.load
  simp only
  rw [tableOfJson_roundtrip]
  rfl

/-- The descending scan finds a row whenever some row of the column is
empty. -/
theorem findRowDesc_isSome (g : List (List Nat)) (col : Nat) :
    ∀ n, (∃ r, r < n ∧ getCell g r col = 0) → (findRowDesc g col n).isSome = true := by
  intro n
  induction n with
  | zero => rintro ⟨r, hr, _⟩; omega
  | succ m ih =>
    rintro ⟨r, hr, hcell⟩
    unfold findRowDesc
    by_cases h0 : getCell g m col = 0
    · rw [if_pos h0]; rfl
    · rw [if_neg h0]
      refine ih ⟨r, ?_, hcell⟩
      rcases Nat.lt_or_ge r m with h | h
      · exact h
      · exfalso
        have : r = m := by omega
        exact h0 (this ▸ hcell)

/-- What the descending scan returns: an in-range empty cell below which
every cell of the column is occupied. -/
theorem findRowDesc_spec (g : List (List Nat)) (col : Nat) :
    ∀ n r, findRowDesc g col n = some r →
      r < n ∧ getCell g r col = 0 ∧ ∀ r', r < r' → r' < n → getCell g r' col ≠ 0 := by
  intro n
  induction n with
  | zero => intro r h; exact Option.noConfusion h
  | succ m ih =>
    intro r h
    unfold findRowDesc at h
    by_cases h0 : getCell g m col = 0
    · rw [if_pos h0] at h
      injection h with h
      subst h
      exact ⟨Nat.lt_succ_self _, h0, fun r' h1 h2 => by omega⟩
    · rw [if_neg h0] at h
      obtain ⟨hlt, hcell, habove⟩ := ih r h
      refine ⟨by omega, hcell, ?_⟩
      intro r' h1 h2
      rcases Nat.lt_or_ge r' m with h3 | h3
      · exact habove r' h1 h3
      · have : r' = m := by omega
        exact this ▸ h0

/-- Reading back a grid after writing one in-range cell: the written cell
holds the new value; every other cell is untouched. -/
theorem getCell_setCell (g : List (List Nat)) (r c v : Nat)
    (hr : r < g.length) (hc : c < (g.getD r []).length) :
    getCell (setCell g r c v) r c = v ∧
    ∀ r' c', ¬(r' = r ∧ c' = c) → getCell (setCell g r c v) r' c' = getCell g r' c' := by
  have hrowD : g.getD r [] = g[r] := by
    rw [List.getD_eq_getElem?_getD, List.getElem?_eq_getElem hr]
    rfl
  have hc' : c < (g[r]).length := hrowD ▸ hc
  have hnew : (g.set r ((g.getD r []).set c v)).getD r [] = (g.getD r []).set c v := by
    rw [List.getD_eq_getElem?_getD, List.getElem?_set_self hr, Option.getD_some]
  constructor
  · show ((g.set r ((g.getD r []).set c v)).getD r []).getD c 0 = v
    rw [hnew, hrowD, List.getD_eq_getElem?_getD, List.getElem?_set_self hc',
      Option.getD_some]
  · intro r' c' hne
    rcases eq_or_ne r' r with hre | hre
    · subst hre
      have hce : c' ≠ c := fun hcc => hne ⟨rfl, hcc⟩
      show ((g.set r' ((g.getD r' []).set c v)).getD r' []).getD c' 0
          = (g.getD r' []).getD c' 0
      rw [hnew, List.getD_eq_getElem?_getD ((g.getD r' []).set c v),
        List.getElem?_set_ne (Ne.symm hce), ← List.getD_eq_getElem?_getD]
    · show ((g.set r ((g.getD r []).set c v)).getD r' []).getD c' 0
          = (g.getD r' []).getD c' 0
      rw [List.getD_eq_getElem?_getD (g.set r ((g.getD r []).set c v)),
        List.getElem?_set_ne (Ne.symm hre), ← List.getD_eq_getElem?_getD]

/-- Occupied-count of an ascending range past a threshold. -/
theorem countP_range_gt (n t : Nat) :
    (List.range n).countP (fun r => decide (t < r)) = n - (t + 1) := by
  induction n with
  | zero => simp
  | succ m ih =>
    rw [List.range_succ, List.countP_append, ih]
    by_cases h : t < m
    · simp only [List.countP_cons, List.countP_nil, decide_eq_true h]
      simp
      omega
    · simp only [List.countP_cons, List.countP_nil]
      rw [decide_eq_false (by omega)]
      simp
      omega

/-- Replacing one row changes the grid's value counts by exactly the
difference between the old and the new row counts (additive form). -/
theorem countVal_set (g : List (List Nat)) (r : Nat) (newRow : List Nat) (w : Nat)
    (hr : r < g.length) :
    countVal (g.set r newRow) w + (g[r]).count w = countVal g w + newRow.count w := by
  unfold countVal
  rw [List.count_flatten, List.count_flatten, List.map_set, List.sum_set]
  have hMl : r < (List.map (List.count w) g).length := by simpa using hr
  rw [if_pos hMl]
  have hold : (List.map (List.count w) g).sum
      = (List.take r (List.map (List.count w) g)).sum + (g[r]).count w
        + (List.drop (r + 1) (List.map (List.count w) g)).sum := by
    conv_lhs => rw [← List.take_append_drop r (List.map (List.count w) g)]
    rw [List.sum_append, ← List.getElem_cons_drop _ r hMl, List.sum_cons,
      List.getElem_map]
    ring
  rw [hold]
  ring

/-- Reading any position of a replicated list returns the replicated value
when it is also the default. -/
theorem getD_replicate_self {α : Type} (n i : Nat) (a : α) :
    (List.replicate n a).getD i a = a := by
  rcases Nat.lt_or_ge i n with h | h
  · rw [List.getD_eq_getElem _ _ (by simpa using h)]
    exact List.getElem_replicate _ _
  · exact List.getD_eq_default _ _ (by simpa using h)

/-- Every cell of a fresh board is empty. -/
theorem getCell_mkBoard (rows cols r c : Nat) :
    getCell (mkBoard rows cols).grid r c = 0 := by
  show ((List.replicate rows (List.replicate cols 0)).getD r []).getD c 0 = 0
  rcases Nat.lt_or_ge r rows with h | h
  · rw [List.getD_eq_getElem (List.replicate rows (List.replicate cols 0)) []
      (by simpa using h), List.getElem_replicate]
    exact getD_replicate_self cols c 0
  · rw [List.getD_eq_default (List.replicate rows (List.replicate cols 0)) []
      (by simpa using h)]
    rfl

/-- A fresh board holds no nonzero value. -/
theorem countVal_mkBoard (rows cols v : Nat) (hv : v ≠ 0) :
    countVal (mkBoard rows cols).grid v = 0 := by
  unfold countVal
  rw [List.count_eq_zero]
  intro hmem
  rcases List.mem_flatten.1 hmem with ⟨row, hrow, hvrow⟩
  rw [List.eq_of_mem_replicate hrow] at hvrow
  exact hv (List.eq_of_mem_replicate hvrow)

/-- The invariant holds for every fresh board. -/
theorem inv_mkBoard (rows cols : Nat) : Inv (mkBoard rows cols) := by
  refine ⟨⟨?_, ?_⟩, ?_, ?_, ?_, ?_, ?_⟩
  · simp [mkBoard]
  · intro row hrow
    rw [List.eq_of_mem_replicate hrow]
    simp [mkBoard]
  · intro r c
    rw [getCell_mkBoard]
    omega
  · intro c r r' _ _ hne
    exact (hne (getCell_mkBoard rows cols r c)).elim
  · exact Or.inl rfl
  · intro _
    rw [countVal_mkBoard rows cols 1 one_ne_zero, countVal_mkBoard rows cols 2 (by omega)]
  · intro h
    exact Player.noConfusion h

/-- The guard of `make_move` is false for a live game and a valid column. -/
theorem makeMove_guard_false {b : Board} {col : Nat}
    (hgo : b.gameOver = false) (hv : col ∈ b.getValidMoves) :
    ¬(b.gameOver = true ∨ col ∉ b.getValidMoves) := by
  rintro (h | h)
  · rw [hgo] at h
    exact Bool.noConfusion h
  · exact h hv

/-- A guarded (invalid) `make_move` returns the board untouched. -/
theorem makeMove_guard_unchanged {b : Board} {col : Nat}
    (h : b.gameOver = true ∨ col ∉ b.getValidMoves) :
    b.makeMove col = (b, false) := by
  unfold Board.makeMove
  rw [if_pos h]

/-- What a successful `make_move` does to the board: one cell written at the
row found by the descending scan, dimensions kept, current player advanced,
`true` returned. -/
theorem makeMove_success_desc (b : Board) (col r0 : Nat)
    (hgo : b.gameOver = false) (hv : col ∈ b.getValidMoves)
    (hfr : findRowDesc b.grid col b.rows = some r0) :
    (b.makeMove col).1.grid = setCell b.grid r0 col b.currentPlayer.value ∧
    (b.makeMove col).1.rows = b.rows ∧
    (b.makeMove col).1.cols = b.cols ∧
    (b.makeMove col).1.currentPlayer = b.currentPlayer.nextPlayer ∧
    (b.makeMove col).2 = true := by
  unfold Board.makeMove
  rw [if_neg (makeMove_guard_false hgo hv), hfr]
  refine ⟨?_, ?_, ?_, ?_, ?_⟩ <;> (dsimp only; repeat' split) <;> rfl

/-- Context of a successful move on an invariant board: the scan result,
its geometry, and its relation to the column's occupied-cell count. -/
theorem makeMove_success_ctx (b : Board) (col : Nat) (hinv : Inv b)
    (hgo : b.gameOver = false) (hv : col ∈ b.getValidMoves) :
    ∃ r0, findRowDesc b.grid col b.rows = some r0 ∧
      r0 < b.rows ∧ getCell b.grid r0 col = 0 ∧
      (∀ r', r0 < r' → r' < b.rows → getCell b.grid r' col ≠ 0) ∧
      col < b.cols ∧ r0 < b.grid.length ∧ (b.grid.getD r0 []).length = b.cols ∧
      r0 = b.rows - 1 - colCount b col := by
  obtain ⟨hlen, hrows⟩ := hinv.wf
  have hcolmem := mem_validMovesOf.1 hv
  have hg0 : 0 < b.grid.length := by
    by_contra hng
    have hnil : b.grid = [] := List.eq_nil_of_length_eq_zero (by omega)
    rw [hnil] at hcolmem
    simp at hcolmem
  have hrowspos : 0 < b.rows := hlen ▸ hg0
  have htoplen : (b.grid.getD 0 []).length = b.cols := by
    rw [List.getD_eq_getElem b.grid [] hg0]
    exact hrows _ (List.getElem_mem hg0)
  have hcol : col < b.cols := htoplen ▸ hcolmem.1
  have htopcell : getCell b.grid 0 col = 0 := by
    show (b.grid.getD 0 []).getD col 0 = 0
    rw [List.getD_eq_getElem (b.grid.getD 0 []) 0 hcolmem.1]
    have h2 := hcolmem.2
    rw [List.getD_eq_getElem (b.grid.getD 0 []) 1 hcolmem.1] at h2
    exact h2
  have hsome := findRowDesc_isSome b.grid col b.rows ⟨0, hrowspos, htopcell⟩
  obtain ⟨r0, hfr⟩ := Option.isSome_iff_exists.1 hsome
  obtain ⟨hr0lt, hr0cell, hr0above⟩ := findRowDesc_spec b.grid col b.rows r0 hfr
  have hbelow : ∀ r', r' ≤ r0 → getCell b.grid r' col = 0 := by
    intro r' hr'
    by_contra hne
    rcases Nat.lt_or_eq_of_le hr' with h | h
    · exact hinv.packed col r' r0 h (by omega) hne hr0cell
    · exact hne (by rw [h]; exact hr0cell)
  have hcount : colCount b col = b.rows - (r0 + 1) := by
    unfold colCount
    rw [List.countP_congr (q := fun r => decide (r0 < r)) ?_, countP_range_gt]
    intro x hx
    rw [List.mem_range] at hx
    constructor
    · intro hpx
      have hne : getCell b.grid x col ≠ 0 := by simpa using hpx
      have hgt : r0 < x := by
        by_contra hle
        exact hne (hbelow x (by omega))
      exact decide_eq_true hgt
    · intro hqx
      have hlt : r0 < x := of_decide_eq_true hqx
      have := hr0above x hlt hx
      simpa using this
  have hr0len : r0 < b.grid.length := by omega
  refine ⟨r0, hfr, hr0lt, hr0cell, hr0above, hcol, hr0len, ?_, by omega⟩
  rw [List.getD_eq_getElem b.grid [] hr0len]
  exact hrows _ (List.getElem_mem hr0len)

/-- One `make_move` call, valid or not, preserves the invariant. -/
theorem inv_step (b : Board) (col : Nat) (hinv : Inv b) : Inv (b.makeMove col).1 := by
  by_cases hguard : b.gameOver = true ∨ col ∉ b.getValidMoves
  · rw [makeMove_guard_unchanged hguard]
    exact hinv
  · push_neg at hguard
    obtain ⟨hgo', hv⟩ := hguard
    have hgo : b.gameOver = false := by
      cases hb : b.gameOver
      · rfl
      · exact absurd hb hgo'
    obtain ⟨r0, hfr, hr0lt, hr0cell, hr0above, hcol, hr0len, hrowlen, _⟩ :=
      makeMove_success_ctx b col hinv hgo hv
    obtain ⟨hgrid', hrows', hcols', hcur', _⟩ := makeMove_success_desc b col r0 hgo hv hfr
    obtain ⟨hlen, hrows⟩ := hinv.wf
    have hclen : col < (b.grid.getD r0 []).length := by
      rw [hrowlen]
      exact hcol
    have hcset := getCell_setCell b.grid r0 col b.currentPlayer.value hr0len hclen
    have hval : b.currentPlayer.value = 1 ∨ b.currentPlayer.value = 2 := by
      rcases hinv.cur with h | h <;> rw [h] <;> simp [Player.value]
    have hvalne : b.currentPlayer.value ≠ 0 := by
      rcases hval with h | h <;> omega
    have hrowD : b.grid.getD r0 [] = b.grid[r0] := List.getD_eq_getElem b.grid [] hr0len
    have hcount : ∀ w : Nat, w ≠ 0 →
        countVal (setCell b.grid r0 col b.currentPlayer.value) w
          = countVal b.grid w + (if b.currentPlayer.value = w then 1 else 0) := by
      intro w hw
      have hins := countVal_set b.grid r0
        ((b.grid.getD r0 []).set col b.currentPlayer.value) w hr0len
      have hcnt := List.count_set b.currentPlayer.value w (b.grid.getD r0 []) col hclen
      have holdc : (b.grid.getD r0 [])[col] = 0 := by
        rw [← List.getD_eq_getElem (b.grid.getD r0 []) 0 hclen]
        exact hr0cell
      rw [holdc] at hcnt
      have hbeq0 : ((0 : Nat) == w) = false := by
        rw [beq_eq_false_iff_ne]
        exact Ne.symm hw
      rw [hbeq0] at hcnt
      simp only [if_false, Nat.sub_zero, Bool.false_eq_true] at hcnt
      show countVal (b.grid.set r0 ((b.grid.getD r0 []).set col b.currentPlayer.value)) w = _
      rw [← hrowD] at hins
      rcases hb : (b.currentPlayer.value == w) with _ | _
      · rw [hb] at hcnt
        rw [if_neg (beq_eq_false_iff_ne.1 hb)]
        simp only [Bool.false_eq_true, if_false] at hcnt
        omega
      · rw [hb] at hcnt
        rw [if_pos (by simpa using hb)]
        simp only [if_true] at hcnt
        omega
    refine ⟨⟨?_, ?_⟩, ?_, ?_, ?_, ?_, ?_⟩
    · rw [hgrid', hrows']
      show (b.grid.set r0 ((b.grid.getD r0 []).set col b.currentPlayer.value)).length = b.rows
      rw [List.length_set]
      exact hlen
    · rw [hgrid', hcols']
      intro row hrow
      rcases List.mem_or_eq_of_mem_set hrow with h | h
      · exact hrows row h
      · rw [h, List.length_set]
        exact hrowlen
    · intro r c
      rw [hgrid']
      by_cases hrc : r = r0 ∧ c = col
      · obtain ⟨h1, h2⟩ := hrc
        rw [h1, h2, hcset.1]
        rcases hval with h | h <;> omega
      · rw [hcset.2 r c hrc]
        exact hinv.cells r c
    · intro c r r' hlt hr' hne0
      rw [hgrid'] at hne0 ⊢
      rw [hrows'] at hr'
      by_cases hr'c : r' = r0 ∧ c = col
      · obtain ⟨h1, h2⟩ := hr'c
        rw [h1, h2, hcset.1]
        exact hvalne
      · rw [hcset.2 r' c hr'c]
        by_cases hrc : r = r0 ∧ c = col
        · obtain ⟨h1, h2⟩ := hrc
          rw [h2]
          exact hr0above r' (by omega) hr'
        · rw [hcset.2 r c hrc] at hne0
          exact hinv.packed c r r' hlt hr' hne0
    · rw [hcur']
      rcases hinv.cur with h | h
      · rw [h]
        exact Or.inr rfl
      · rw [h]
        exact Or.inl rfl
    · intro hp1
      rw [hcur'] at hp1
      have hcurp2 : b.currentPlayer = .p2 := by
        rcases hinv.cur with h | h
        · rw [h] at hp1
          exact absurd hp1 (by decide)
        · exact h
      have hold := hinv.balance2 hcurp2
      rw [hgrid', hcount 1 one_ne_zero, hcount 2 (by omega), hcurp2]
      norm_num [Player.value]
      omega
    · intro hp2
      rw [hcur'] at hp2
      have hcurp1 : b.currentPlayer = .p1 := by
        rcases hinv.cur with h | h
        · exact h
        · rw [h] at hp2
          exact absurd hp2 (by decide)
      have hold := hinv.balance1 hcurp1
      rw [hgrid', hcount 1 one_ne_zero, hcount 2 (by omega), hcurp1]
      norm_num [Player.value]
      omega

/-- Every reachable board satisfies the invariant. -/
theorem reachable_inv {b : Board} (h : Reachable b) : Inv b := by
  induction h with
  | base rows cols => exact inv_mkBoard rows cols
  | step b col _ ih => exact inv_step b col ih

/-- C5: on a reachable board, a successful `make_move` into a column holding
`k` occupied cells writes the current player's token at row `rows - 1 - k` —
the lowest empty row, which was empty before — and changes no other cell of
the grid. -/
theorem makeMove_gravity (b : Board) (col : Nat) (b' : Board)
    (hreach : Reachable b) (h : b.makeMove col = (b', true)) :
    getCell b.grid (b.rows - 1 - colCount b col) col = 0 ∧
    getCell b'.grid (b.rows - 1 - colCount b col) col = b.currentPlayer.value ∧
    ∀ r c, ¬(r = b.rows - 1 - colCount b col ∧ c = col) →
      getCell b'.grid r c = getCell b.grid r c := by
  have hinv := reachable_inv hreach
  have hguard : ¬(b.gameOver = true ∨ col ∉ b.getValidMoves) := by
    intro hg
    rw [makeMove_guard_unchanged hg] at h
    have hfb : (false : Bool) = true := congrArg Prod.snd h
    exact Bool.noConfusion hfb
  push_neg at hguard
  obtain ⟨hgo', hv⟩ := hguard
  have hgo : b.gameOver = false := by
    cases hb : b.gameOver
    · rfl
    · exact absurd hb hgo'
  obtain ⟨r0, hfr, hr0lt, hr0cell, _, hcol, hr0len, hrowlen, hr0eq⟩ :=
    makeMove_success_ctx b col hinv hgo hv
  obtain ⟨hgrid', _, _, _, _⟩ := makeMove_success_desc b col r0 hgo hv hfr
  have hb'grid : b'.grid = setCell b.grid r0 col b.currentPlayer.value := by
    rw [h] at hgrid'
    exact hgrid'
  have hcset := getCell_setCell b.grid r0 col b.currentPlayer.value hr0len
    (by rw [hrowlen]; exact hcol)
  rw [← hr0eq]
  refine ⟨hr0cell, ?_, ?_⟩
  · rw [hb'grid]
    exact hcset.1
  · intro r c hrc
    rw [hb'grid]
    exact hcset.2 r c hrc

/-- Witness for C5 at a concrete input: the first move on a fresh 2×1 board
lands at the bottom row. -/
theorem makeMove_gravity_witness :
    Reachable (mkBoard 2 1) ∧
    (mkBoard 2 1).makeMove 0 = (⟨2, 1, [[0], [1]], .p2, some (1, 0), false, none⟩, true) ∧
    (getCell (mkBoard 2 1).grid ((mkBoard 2 1).rows - 1 - colCount (mkBoard 2 1) 0) 0 = 0 ∧
      getCell (⟨2, 1, [[0], [1]], .p2, some (1, 0), false, none⟩ : Board).grid
          ((mkBoard 2 1).rows - 1 - colCount (mkBoard 2 1) 0) 0
        = (mkBoard 2 1).currentPlayer.value ∧
      ∀ r c, ¬(r = (mkBoard 2 1).rows - 1 - colCount (mkBoard 2 1) 0 ∧ c = 0) →
        getCell (⟨2, 1, [[0], [1]], .p2, some (1, 0), false, none⟩ : Board).grid r c
          = getCell (mkBoard 2 1).grid r c) :=
  ⟨Reachable.base 2 1, by decide,
    makeMove_gravity (mkBoard 2 1) 0 ⟨2, 1, [[0], [1]], .p2, some (1, 0), false, none⟩
      (Reachable.base 2 1) (by decide)⟩

/-- C9: on every reachable board each cell holds the value of EMPTY,
PLAYER_1 or PLAYER_2, and the count of PLAYER_1 tokens minus the count of
PLAYER_2 tokens is 0 when PLAYER_1 is to move and 1 when PLAYER_2 is to
move. -/
theorem reachable_cells_balance (b : Board) (h : Reachable b) :
    (∀ r c, getCell b.grid r c = Player.empty.value ∨
      getCell b.grid r c = Player.p1.value ∨ getCell b.grid r c = Player.p2.value) ∧
    (b.currentPlayer = .p1 →
      countVal b.grid Player.p1.value = countVal b.grid Player.p2.value) ∧
    (b.currentPlayer = .p2 →
      countVal b.grid Player.p1.value = countVal b.grid Player.p2.value + 1) := by
  have hinv := reachable_inv h
  refine ⟨?_, hinv.balance1, hinv.balance2⟩
  intro r c
  have hc := hinv.cells r c
  simp only [Player.value]
  omega

/-- Witness for C9 at a concrete input: the fresh 1×1 board. -/
theorem reachable_cells_balance_witness :
    Reachable (mkBoard 1 1) ∧
    ((∀ r c, getCell (mkBoard 1 1).grid r c = Player.empty.value ∨
        getCell (mkBoard 1 1).grid r c = Player.p1.value ∨
        getCell (mkBoard 1 1).grid r c = Player.p2.value) ∧
      ((mkBoard 1 1).currentPlayer = .p1 →
        countVal (mkBoard 1 1).grid Player.p1.value
          = countVal (mkBoard 1 1).grid Player.p2.value) ∧
      ((mkBoard 1 1).currentPlayer = .p2 →
        countVal (mkBoard 1 1).grid Player.p1.value
          = countVal (mkBoard 1 1).grid Player.p2.value + 1)) :=
  ⟨Reachable.base 1 1, reachable_cells_balance (mkBoard 1 1) (Reachable.base 1 1)⟩

end Connect4
